import Mathlib

/-!
Shallow embedding of the UBX message-generator schema compiler
(`msggen.go`): the scalar type resolver `goType` (regex `reCType` plus the
scalar-code switch), the bit-mask resolver `mask`, the naming normalizer
`msgtypename`, numeric literal parsing (`Hex.UnmarshalXML`, which calls
`strconv.ParseUint(f, 0, 64)`), and the `Definitions` / `Message` /
`Block` / `BitDef` graph with its `Link` pass.

Go strings are modelled as `List Char` (`GoStr`); the case-mapping helpers
are the ASCII fragment of the Unicode tables used by `strings.ToLower`,
`strings.Title` and `strconv`'s `lower` (all inputs in this development are
ASCII, where the two agree).  Machine integers are `Nat` two's-complement
bit patterns with an explicit `% 2 ^ 64` wherever 64-bit wrap-around
matters; the mask resolver's expression is a signed `int` in the source
(the untyped `1` of its non-constant shifts defaults to `int`), whose
`+`, `-`, `<<` and `^` act on the bit pattern exactly like the unsigned
computation, the sign mattering only when `%x` renders the result
(`hexIntChars`).  The back-references
`Block.Message` and `BitDef.Field`, mutable pointers in the source, are
modelled arena-style: a `Block` back-reference is the index of the
enclosing message, a `BitDef` back-reference is that index paired with the
path of nested-block indices leading to the owning block.
-/

/-- Go strings, modelled as lists of characters. -/
abbrev GoStr := List Char

/-- Bounds-guarded Go slice indexing `xs[i]`. -/
def nth {α : Type} : List α → Nat → Option α
  | [], _ => none
  | a :: _, 0 => some a
  | _ :: as, n + 1 => nth as n

/-- Go `strings.Split s sep` for a one-character separator `sep`. -/
def splitOnChar (sep : Char) : GoStr → List GoStr
  | [] => [[]]
  | c :: cs =>
    if c = sep then [] :: splitOnChar sep cs
    else
      match splitOnChar sep cs with
      | [] => [[c]]
      | p :: ps => (c :: p) :: ps

/-- Go `strings.Join parts ""`. -/
def joinAll : List GoStr → GoStr
  | [] => []
  | p :: ps => p ++ joinAll ps

/-- First-match association lookup (the finite case-mapping tables below
stand in for the Unicode tables of the `strings` package). -/
def lookupCh : List (Char × Char) → Char → Option Char
  | [], _ => none
  | (k, v) :: t, c => if c = k then some v else lookupCh t c

/-- ASCII fragment of the lower-case table used by `strings.ToLower`. -/
def lowerTable : List (Char × Char) :=
  [('A', 'a'), ('B', 'b'), ('C', 'c'), ('D', 'd'), ('E', 'e'), ('F', 'f'),
   ('G', 'g'), ('H', 'h'), ('I', 'i'), ('J', 'j'), ('K', 'k'), ('L', 'l'),
   ('M', 'm'), ('N', 'n'), ('O', 'o'), ('P', 'p'), ('Q', 'q'), ('R', 'r'),
   ('S', 's'), ('T', 't'), ('U', 'u'), ('V', 'v'), ('W', 'w'), ('X', 'x'),
   ('Y', 'y'), ('Z', 'z')]

/-- ASCII fragment of the title-case table used by `strings.Title`
(`unicode.ToTitle` coincides with upper-casing on ASCII). -/
def upperTable : List (Char × Char) :=
  [('a', 'A'), ('b', 'B'), ('c', 'C'), ('d', 'D'), ('e', 'E'), ('f', 'F'),
   ('g', 'G'), ('h', 'H'), ('i', 'I'), ('j', 'J'), ('k', 'K'), ('l', 'L'),
   ('m', 'M'), ('n', 'N'), ('o', 'O'), ('p', 'P'), ('q', 'Q'), ('r', 'R'),
   ('s', 'S'), ('t', 'T'), ('u', 'U'), ('v', 'V'), ('w', 'W'), ('x', 'X'),
   ('y', 'Y'), ('z', 'Z')]

/-- Lower-case one character (identity off the table). -/
def toLowerCh (c : Char) : Char := (lookupCh lowerTable c).getD c

/-- Title-case one character (identity off the table). -/
def toUpperCh (c : Char) : Char := (lookupCh upperTable c).getD c

/-- `strings.ToLower` (ASCII fragment). -/
def toLowerGo (s : GoStr) : GoStr := s.map toLowerCh

/-!  #### `strconv.ParseUint` with base 0  -/

/-- The two error kinds `strconv.ParseUint` can report: `ErrSyntax`
(returned with value 0) and `ErrRange` (returned with the max value). -/
inductive NumErr where
  | synErr
  | rangeErr
deriving DecidableEq

/-- Digit classification of `strconv`'s conversion loop: `'0'..'9'` are
values 0–9 and letters (after `lower`) are values 10–35; anything else is
a syntax error. -/
def digitVal (c : Char) : Option Nat :=
  if c.isDigit then some (c.toNat - '0'.toNat)
  else if c.isLower then some (c.toNat - 'a'.toNat + 10)
  else if c.isUpper then some (c.toNat - 'A'.toNat + 10)
  else none

/-- The digit-accumulation loop of `strconv.ParseUint` (base 0 variant, so
underscores are skipped here and validated afterwards): returns the Go
result value together with the error, mirroring the order of the checks in
the source (`d >= base` syntax error, `n >= cutoff` and `n1 > maxVal`
range errors returning `maxVal`). -/
def parseLoop (base maxVal cutoff : Nat) : GoStr → Nat → Nat × Option NumErr
  | [], n => (n, none)
  | c :: cs, n =>
    if c = '_' then parseLoop base maxVal cutoff cs n
    else
      match digitVal c with
      | none => (0, some .synErr)
      | some d =>
        if base ≤ d then (0, some .synErr)
        else if cutoff ≤ n then (maxVal, some .rangeErr)
        else if maxVal < n * base + d then (maxVal, some .rangeErr)
        else parseLoop base maxVal cutoff cs (n * base + d)

/-- State machine of `strconv`'s `underscoreOK`: `saw` is `'^'` at the
start, `'0'` after a digit or base prefix, `'_'` after an underscore and
`'!'` otherwise; each underscore must be both preceded and followed by a
digit. -/
def underscoreOKLoop (hexb : Bool) : GoStr → Char → Bool
  | [], saw => decide (saw ≠ '_')
  | c :: cs, saw =>
    if c.isDigit ∨ (hexb = true ∧ (('a' ≤ c ∧ c ≤ 'f') ∨ ('A' ≤ c ∧ c ≤ 'F'))) then
      underscoreOKLoop hexb cs '0'
    else if c = '_' then
      decide (saw = '0') && underscoreOKLoop hexb cs '_'
    else if saw = '_' then false
    else underscoreOKLoop hexb cs '!'

/-- `strconv`'s `underscoreOK`: an optional sign, an optional base prefix
(which counts as a digit), then the state machine over the rest. -/
def underscoreOK (s : GoStr) : Bool :=
  let s1 := match s with
    | c :: cs => if c = '-' ∨ c = '+' then cs else s
    | [] => s
  match s1 with
  | c0 :: c1 :: rest =>
    if c0 = '0' ∧ (c1 = 'b' ∨ c1 = 'B' ∨ c1 = 'o' ∨ c1 = 'O' ∨ c1 = 'x' ∨ c1 = 'X') then
      underscoreOKLoop (c1 = 'x' ∨ c1 = 'X') rest '0'
    else underscoreOKLoop false s1 '^'
  | _ => underscoreOKLoop false s1 '^'

/-- Go `strconv.ParseUint(s, 0, bitSize)`: base sniffing from the prefix
(`0b`/`0o`/`0x` when at least one digit follows, otherwise a leading `0`
means octal), the conversion loop, then the underscore validation.  The
`Nat` component is the `uint64` Go returns (also on error: 0 for syntax
errors, `2 ^ bitSize - 1` for range errors). -/
def goParseUint (bitSize : Nat) (s : GoStr) : Nat × Option NumErr :=
  match s with
  | [] => (0, some .synErr)
  | c0 :: rest =>
    let bd : Nat × GoStr :=
      if c0 = '0' then
        match rest with
        | c1 :: r2 =>
          if r2 ≠ [] ∧ (c1 = 'b' ∨ c1 = 'B') then (2, r2)
          else if r2 ≠ [] ∧ (c1 = 'o' ∨ c1 = 'O') then (8, r2)
          else if r2 ≠ [] ∧ (c1 = 'x' ∨ c1 = 'X') then (16, r2)
          else (8, c1 :: r2)
        | [] => (8, [])
      else (10, c0 :: rest)
    let maxVal := 2 ^ bitSize - 1
    let cutoff := (2 ^ 64 - 1) / bd.1 + 1
    let r := parseLoop bd.1 maxVal cutoff bd.2 0
    if r.2 = none ∧ bd.2.contains '_' = true ∧ underscoreOK s = false then
      (0, some .synErr)
    else r

/-- Result of `Hex.UnmarshalXML` once the element text is in hand: the
parsed `uint64` or the propagated `strconv` error. -/
inductive HexRes where
  | ok (v : Nat)
  | err (e : NumErr)
deriving DecidableEq

/-- `Hex.UnmarshalXML` applied to the decoded element text `f`:
`strconv.ParseUint(f, 0, 64)`, propagating its error. -/
def hexUnmarshal (f : GoStr) : HexRes :=
  match goParseUint 64 f with
  | (v, none) => .ok v
  | (_, some e) => .err e

/-!  #### The bit-mask resolver `mask`  -/

/-- Bit pattern of Go `1 << k` on a 64-bit integer (signed or unsigned:
shift counts of 64 or more give 0, `1 << 63` is the sign bit). -/
def shl1 (k : Nat) : Nat := 2 ^ k % 2 ^ 64

/-- Bit pattern of Go `x - 1` on a 64-bit integer (wrap-around at 0). -/
def sub1u64 (x : Nat) : Nat := (x + (2 ^ 64 - 1)) % 2 ^ 64

/-- Digits of `fmt.Sprintf "%x"`: lowercase hexadecimal with no leading
zeros (`64` units of fuel cover every value below `2 ^ 256`). -/
def hexCore : Nat → Nat → GoStr
  | 0, _ => []
  | fuel + 1, n => if n = 0 then [] else hexCore fuel (n / 16) ++ [Nat.digitChar (n % 16)]

/-- `fmt.Sprintf "%x" n` for `n < 2 ^ 64`. -/
def hexChars (n : Nat) : GoStr := if n = 0 then ['0'] else hexCore 64 n

/-- `fmt.Sprintf "%x"` of the source's signed `int` mask result, given
its 64-bit two's-complement bit pattern `n`: values with the sign bit
clear print as plain lowercase hex, negative values print as `-`
followed by the hex of the magnitude (so the pattern `2 ^ 64 - 1`, the
`int` value `-1`, prints as `-1`). -/
def hexIntChars (n : Nat) : GoStr :=
  if n < 2 ^ 63 then hexChars n else '-' :: hexChars (2 ^ 64 - n)

/-- The body of `mask` after the split: with exactly two parts parse both
as 8-bit base-0 integers (errors discarded) and render
`((1<<(hi+1))-1)^((1<<lo)-1)`; otherwise parse the whole specifier `s`
and render `1<<i`.  The expressions are signed `int` in the source; the
arithmetic here computes their 64-bit two's-complement bit pattern and
`hexIntChars` renders it the way `%x` renders the signed value. -/
def maskParts (parts : List GoStr) (s : GoStr) : GoStr :=
  match parts with
  | [a, b] =>
    let hi := (goParseUint 8 a).1
    let lo := (goParseUint 8 b).1
    '0' :: 'x' :: hexIntChars (sub1u64 (shl1 (hi + 1)) ^^^ sub1u64 (shl1 lo))
  | _ =>
    let i := (goParseUint 8 s).1
    '0' :: 'x' :: hexIntChars (shl1 i)

/-- `mask`: split on `":"` and dispatch on the number of parts. -/
def mask (s : GoStr) : GoStr := maskParts (splitOnChar ':' s) s

/-!  #### The scalar type resolver `goType`  -/

/-- The character class `[CHIRUX0-9_]` of `reCType`. -/
def isCTypeChar (c : Char) : Bool :=
  c = 'C' || c = 'H' || c = 'I' || c = 'R' || c = 'U' || c = 'X' || c = '_' || c.isDigit

/-- The optional group `(\[[0-9]+\])?` of `reCType`, tried right after
group 1: the bracketed nonempty digit group at the front of `rest` when
present, else empty. -/
def bracketGroup : GoStr → GoStr
  | '[' :: r =>
    match r.takeWhile Char.isDigit, r.dropWhile Char.isDigit with
    | [], _ => []
    | ds, ']' :: _ => '[' :: (ds ++ [']'])
    | _, _ => []
  | _ => []

/-- `reCType.FindStringSubmatch`: the leftmost-first match of
`([CHIRUX0-9_]+)(\[[0-9]+\])?`.  Since `[` is outside the class, group 1
is the first maximal run of class characters and group 2 is
`bracketGroup` of what follows the run; `none` when the string has no
class character at all. -/
def reCTypeFind : GoStr → Option (GoStr × GoStr)
  | [] => none
  | c :: cs =>
    if isCTypeChar c then
      some (c :: cs.takeWhile isCTypeChar, bracketGroup (cs.dropWhile isCTypeChar))
    else reCTypeFind cs

/-- Go `fmt`'s `%q` on plain strings: printable ASCII other than the
quote and the backslash is quoted verbatim, so `%q` just wraps it in
quotes.  Error-message statements below quantify only over such strings
(`plainChar`), where this model is exact. -/
def goQuote (s : GoStr) : GoStr := '"' :: (s ++ ['"'])

/-- Characters `%q` quotes verbatim: printable ASCII, no quote, no
backslash. -/
def plainChar (c : Char) : Bool :=
  decide (32 ≤ c.toNat) && decide (c.toNat ≤ 126) && !(c = '"') && !(c = '\\')

/-- The `(string, error)` pair returned by `goType`. -/
inductive GoRes where
  | ok (t : GoStr)
  | err (msg : GoStr)
deriving DecidableEq

/-- The `switch parts[1]` of `goType`: the Go type generated for each
recognized scalar code, `none` for the `default` branch. -/
def scalarSwitch (g1 : GoStr) : Option GoStr :=
  if g1 = "RU1_3".data then some "Float8".data
  else if g1 = "R4".data then some "float32".data
  else if g1 = "R8".data then some "float64".data
  else if g1 = "I1".data then some "int8".data
  else if g1 = "U1".data ∨ g1 = "CH".data ∨ g1 = "X1".data then some "byte".data
  else if g1 = "I2".data then some "int16".data
  else if g1 = "U2".data ∨ g1 = "X2".data then some "uint16".data
  else if g1 = "I4".data then some "int32".data
  else if g1 = "U4".data ∨ g1 = "X4".data then some "uint32".data
  else if g1 = "I8".data then some "int64".data
  else if g1 = "U8".data then some "uint64".data
  else none

/-- `goType`: match `reCType`, map the scalar part through the switch, and
prepend the array suffix when present; errors reproduce the two
`fmt.Errorf` messages of the source. -/
def goType (ctype : GoStr) : GoRes :=
  match reCTypeFind ctype with
  | none => .err ("Cannot parse ".data ++ goQuote ctype ++ " as ctype([arraylen])".data)
  | some (g1, g2) =>
    match scalarSwitch g1 with
    | none =>
      .err ("Cannot parse ".data ++ goQuote ctype ++
        " as a ctype (invalid scalar part ".data ++ goQuote g1 ++ ")".data)
    | some t => if g2 = [] then .ok t else .ok (g2 ++ t)

/-!  #### The naming normalizer  -/

/-- `strings.Title`'s separator test (ASCII branch): everything except
alphanumerics and underscore separates words. -/
def isSepGo (c : Char) : Bool := !(c.isDigit || c.isLower || c.isUpper || c = '_')

/-- The stateful map inside `strings.Title`: title-case a character when
the previous one is a separator (the state starts at `' '`). -/
def goTitleAux : Char → GoStr → GoStr
  | _, [] => []
  | prev, c :: cs => (if isSepGo prev then toUpperCh c else c) :: goTitleAux c cs

/-- `strings.Title` (ASCII fragment). -/
def goTitle (s : GoStr) : GoStr := goTitleAux ' ' s

/-- `msgtypename`: lower-case, split on `"-"`, title-case every segment,
join all segments after the first. -/
def msgtypename (s : GoStr) : GoStr :=
  joinAll (List.drop 1 ((splitOnChar '-' (toLowerGo s)).map goTitle))

/-- `notabs`: the `wstospace` replacer, turning tabs and newlines into
spaces. -/
def notabs (s : GoStr) : GoStr :=
  s.map (fun c => if c = '\t' ∨ c = '\n' then ' ' else c)

/-!  #### The schema graph and the `Link` pass  -/

/-- `BitDef`: one named bit or bit-range of a bitfield.  `Field` is the
back-reference to the owning block, arena-style: the enclosing message's
index paired with the owning block's path of nested indices. -/
structure BitDef where
  Index : GoStr
  Ty : GoStr
  Name : GoStr
  Description : GoStr
  Field : Option (Nat × List Nat)

/-- `Block`: one field or field-group of a payload; `Message` is the
back-reference to the enclosing message, arena-style (its index). -/
inductive Block where
  | mk (Cardinality CountField Offset Name Ty Comment Scale Unit : GoStr)
       (Bitfield : List BitDef) (Nested : List Block) (Message : Option Nat)

def Block.Bitfield : Block → List BitDef
  | .mk _ _ _ _ _ _ _ _ bf _ _ => bf

def Block.Nested : Block → List Block
  | .mk _ _ _ _ _ _ _ _ _ ns _ => ns

def Block.Message : Block → Option Nat
  | .mk _ _ _ _ _ _ _ _ _ _ msg => msg

/-- `Message`: one wire-message type (`Class` and `Id` are the parsed
`Hex` values, i.e. `uint64`s). -/
structure Message where
  Name : GoStr
  Ty : GoStr
  Description : GoStr
  Comment : GoStr
  Firmware : GoStr
  Class : Nat
  Id : Nat
  Length : GoStr
  Blocks : List Block

/-- `Definitions`: the root of the schema graph. -/
structure Definitions where
  Message : List Message

mutual

/-- `Block.Link(m)`: set the block's message back-reference, point every
bitfield entry back at this block (here: at its address `(mid, p)`), and
recurse into the nested blocks. -/
def Block.link (mid : Nat) (p : List Nat) : Block → Block
  | .mk card cf off nm ty cm sc un bf ns _ =>
    .mk card cf off nm ty cm sc un
      (bf.map fun bd => { bd with Field := some (mid, p) })
      (Block.linkList mid p 0 ns) (some mid)

/-- The `for … range` loop over a block list inside the `Link` pass,
threading the index that addresses each child. -/
def Block.linkList (mid : Nat) (p : List Nat) (i : Nat) : List Block → List Block
  | [] => []
  | b :: bs => Block.link mid (p ++ [i]) b :: Block.linkList mid p (i + 1) bs

end

/-- `Message.Link`: link every top-level block of the payload. -/
def Message.link (mid : Nat) (m : Message) : Message :=
  { m with Blocks := Block.linkList mid [] 0 m.Blocks }

/-- The `for … range` loop of `Definitions.Link`, threading each
message's index (the arena identifier standing in for its pointer). -/
def linkMsgs : Nat → List Message → List Message
  | _, [] => []
  | i, m :: ms => Message.link i m :: linkMsgs (i + 1) ms

/-- `Definitions.Link`. -/
def Definitions.link (d : Definitions) : Definitions :=
  ⟨linkMsgs 0 d.Message⟩

/-- Erase a `BitDef` back-reference (for stating that linking changes
nothing else). -/
def BitDef.strip (bd : BitDef) : BitDef := { bd with Field := none }

mutual

/-- Erase every back-reference in a block subtree. -/
def Block.strip : Block → Block
  | .mk card cf off nm ty cm sc un bf ns _ =>
    .mk card cf off nm ty cm sc un (bf.map BitDef.strip) (Block.stripList ns) none

def Block.stripList : List Block → List Block
  | [] => []
  | b :: bs => Block.strip b :: Block.stripList bs

end

/-- Erase every back-reference below a message. -/
def Message.strip (m : Message) : Message :=
  { m with Blocks := Block.stripList m.Blocks }

/-- Erase every back-reference in the graph. -/
def Definitions.strip (d : Definitions) : Definitions :=
  ⟨d.Message.map Message.strip⟩

/-- Look a block up by its path of nested indices (first index into the
given list, the rest into successive `Nested` lists). -/
def blockAt : List Block → List Nat → Option Block
  | _, [] => none
  | bs, k :: rest =>
    match nth bs k with
    | none => none
    | some b => if rest = [] then some b else blockAt b.Nested rest

/-- The scalar-code table of the `goType` switch, paired with the Go type
each code generates. -/
def codeTable : List (GoStr × GoStr) :=
  [("RU1_3".data, "Float8".data), ("R4".data, "float32".data), ("R8".data, "float64".data),
   ("I1".data, "int8".data), ("U1".data, "byte".data), ("CH".data, "byte".data),
   ("X1".data, "byte".data), ("I2".data, "int16".data), ("U2".data, "uint16".data),
   ("X2".data, "uint16".data), ("I4".data, "int32".data), ("U4".data, "uint32".data),
   ("X4".data, "uint32".data), ("I8".data, "int64".data), ("U8".data, "uint64".data)]

/-- Example bit definition, for exercising the linker. -/
def exBitDef : BitDef := ⟨"0".data, "U1".data, "flag".data, [], none⟩

/-- Example innermost block, carrying a bitfield. -/
def exInner : Block :=
  .mk [] [] "4".data "inner".data "X1".data [] [] [] [exBitDef] [] none

/-- Example top-level block with one nested block. -/
def exOuter : Block :=
  .mk "repeated".data "cnt".data "0".data "outer".data [] [] [] [] [] [exInner] none

/-- Example message. -/
def exMsg : Message :=
  ⟨"NAV-TEST".data, [], [], [], [], 1, 2, "8 + 4*N".data, [exOuter]⟩

/-- Example schema graph with depth-two nesting. -/
def exDefs : Definitions := ⟨[exMsg]⟩

/-- Shift the first index of a block path by `i` (relating the paths used
by `Block.linkList`, whose counter starts at `i`, to plain paths). -/
def incHead (i : Nat) : List Nat → List Nat
  | [] => []
  | k :: r => (i + k) :: r

/-!  ### Helper lemmas  -/

theorem splitOnChar_of_not_mem {sep : Char} {s : GoStr} (h : ∀ c ∈ s, c ≠ sep) :
    splitOnChar sep s = [s] := by
  induction s with
  | nil => rfl
  | cons c cs ih =>
    have hc : c ≠ sep := h c (List.mem_cons_self c cs)
    have ih2 := ih (fun x hx => h x (List.mem_cons_of_mem c hx))
    simp [splitOnChar, hc, ih2]

theorem splitOnChar_append {sep : Char} {a : GoStr} (b : GoStr) (h : ∀ c ∈ a, c ≠ sep) :
    splitOnChar sep (a ++ sep :: b) = a :: splitOnChar sep b := by
  induction a with
  | nil => simp [splitOnChar]
  | cons c cs ih =>
    have hc : c ≠ sep := h c (by simp)
    have ih2 := ih (fun x hx => h x (by simp [hx]))
    simp [splitOnChar, hc, ih2]

theorem sub1_shl1 (k : Nat) : sub1u64 (shl1 k) = (2 ^ k - 1) % 2 ^ 64 := by
  unfold shl1 sub1u64
  rcases Nat.lt_or_ge k 64 with h | h
  · have h1 : 2 ^ k < 2 ^ 64 := Nat.pow_lt_pow_right (by norm_num) h
    have h2 : 0 < 2 ^ k := Nat.pos_pow_of_pos k (by norm_num)
    omega
  · obtain ⟨m, hm⟩ : (2 : Nat) ^ 64 ∣ 2 ^ k := pow_dvd_pow 2 h
    have hp : 0 < (2 : Nat) ^ k := Nat.pos_pow_of_pos k (by norm_num)
    rw [hm] at hp ⊢
    omega

theorem xor_mod_two_pow_64 (x y : Nat) :
    (x % 2 ^ 64) ^^^ (y % 2 ^ 64) = (x ^^^ y) % 2 ^ 64 := by
  apply Nat.eq_of_testBit_eq
  intro i
  simp only [Nat.testBit_xor, Nat.testBit_mod_two_pow]
  by_cases h : i < 64 <;> simp [h]

theorem parseLoop_syn_val {base maxVal cutoff : Nat} :
    ∀ (s : GoStr) (n : Nat), (parseLoop base maxVal cutoff s n).2 = some NumErr.synErr →
      (parseLoop base maxVal cutoff s n).1 = 0 := by
  intro s
  induction s with
  | nil => intro n h; simp [parseLoop] at h
  | cons c cs ih =>
    intro n h
    by_cases hc : c = '_'
    · simp only [parseLoop, if_pos hc] at h ⊢
      exact ih n h
    · simp only [parseLoop, if_neg hc] at h ⊢
      cases hd : digitVal c with
      | none => simp [hd]
      | some d =>
        simp only [hd] at h ⊢
        split_ifs at h ⊢ with h1 h2 h3
        · rfl
        · exact absurd h (by simp)
        · exact absurd h (by simp)
        · exact ih _ h

theorem goParseUint_syn_val {bitSize : Nat} {s : GoStr}
    (h : (goParseUint bitSize s).2 = some NumErr.synErr) :
    (goParseUint bitSize s).1 = 0 := by
  cases s with
  | nil => rfl
  | cons c0 rest =>
    simp only [goParseUint] at h ⊢
    split_ifs at h ⊢ <;> first | rfl | exact parseLoop_syn_val _ _ h

theorem lookupCh_mem : ∀ {t : List (Char × Char)} {c v : Char},
    lookupCh t c = some v → v ∈ t.map Prod.snd := by
  intro t
  induction t with
  | nil => intro c v h; simp [lookupCh] at h
  | cons p t ih =>
    intro c v h
    cases p with
    | mk k w =>
      by_cases hc : c = k
      · simp only [lookupCh, if_pos hc, Option.some.injEq] at h
        simp [h]
      · simp only [lookupCh, if_neg hc] at h
        simp [ih h]

theorem toLowerCh_eq_dash {c : Char} (h : toLowerCh c = '-') : c = '-' := by
  unfold toLowerCh at h
  cases hl : lookupCh lowerTable c with
  | none => rw [hl] at h; exact h
  | some v =>
    rw [hl] at h
    simp only [Option.getD_some] at h
    subst h
    exact absurd (lookupCh_mem hl) (by decide)

theorem reCTypeFind_eq_none {s : GoStr} (h : ∀ c ∈ s, isCTypeChar c = false) :
    reCTypeFind s = none := by
  induction s with
  | nil => rfl
  | cons c cs ih =>
    have hc := h c (by simp)
    have ih2 := ih (fun x hx => h x (by simp [hx]))
    simp [reCTypeFind, hc, ih2]

theorem takeWhile_append_all {p : Char → Bool} :
    ∀ (a b : GoStr), (∀ c ∈ a, p c = true) →
      (a ++ b).takeWhile p = a ++ b.takeWhile p := by
  intro a
  induction a with
  | nil => intro b _; rfl
  | cons c cs ih =>
    intro b h
    have hc := h c (by simp)
    have ih2 := ih b (fun x hx => h x (by simp [hx]))
    simp [List.takeWhile, hc, ih2]

theorem dropWhile_append_all {p : Char → Bool} :
    ∀ (a b : GoStr), (∀ c ∈ a, p c = true) →
      (a ++ b).dropWhile p = b.dropWhile p := by
  intro a
  induction a with
  | nil => intro b _; rfl
  | cons c cs ih =>
    intro b h
    have hc := h c (by simp)
    have ih2 := ih b (fun x hx => h x (by simp [hx]))
    simp [List.dropWhile, hc, ih2]

theorem takeWhile_head_false {p : Char → Bool} {b : GoStr}
    (h : ∀ c ∈ b.take 1, p c = false) : b.takeWhile p = [] := by
  cases b with
  | nil => rfl
  | cons c cs =>
    have hc := h c (by simp)
    simp [List.takeWhile, hc]

theorem dropWhile_head_false {p : Char → Bool} {b : GoStr}
    (h : ∀ c ∈ b.take 1, p c = false) : b.dropWhile p = b := by
  cases b with
  | nil => rfl
  | cons c cs =>
    have hc := h c (by simp)
    simp [List.dropWhile, hc]

theorem reCTypeFind_run {code rest : GoStr} (hne : code ≠ [])
    (hall : ∀ c ∈ code, isCTypeChar c = true)
    (hhead : ∀ c ∈ rest.take 1, isCTypeChar c = false) :
    reCTypeFind (code ++ rest) = some (code, bracketGroup rest) := by
  cases code with
  | nil => exact absurd rfl hne
  | cons c cs =>
    have hc : isCTypeChar c = true := hall c (by simp)
    have hcs : ∀ x ∈ cs, isCTypeChar x = true := fun x hx => hall x (by simp [hx])
    simp only [List.cons_append, reCTypeFind, hc, if_true, List.append_eq]
    rw [takeWhile_append_all cs rest hcs, takeWhile_head_false hhead,
      dropWhile_append_all cs rest hcs, dropWhile_head_false hhead]
    simp

theorem scalarSwitch_eq_none {g1 : GoStr} (hn : g1 ∉ codeTable.map Prod.fst) :
    scalarSwitch g1 = none := by
  have ne : ∀ t ∈ codeTable.map Prod.fst, g1 ≠ t := fun t ht he => hn (he ▸ ht)
  have n1 : g1 ≠ "RU1_3".data := ne _ (by decide)
  have n2 : g1 ≠ "R4".data := ne _ (by decide)
  have n3 : g1 ≠ "R8".data := ne _ (by decide)
  have n4 : g1 ≠ "I1".data := ne _ (by decide)
  have n5 : g1 ≠ "U1".data := ne _ (by decide)
  have n6 : g1 ≠ "CH".data := ne _ (by decide)
  have n7 : g1 ≠ "X1".data := ne _ (by decide)
  have n8 : g1 ≠ "I2".data := ne _ (by decide)
  have n9 : g1 ≠ "U2".data := ne _ (by decide)
  have n10 : g1 ≠ "X2".data := ne _ (by decide)
  have n11 : g1 ≠ "I4".data := ne _ (by decide)
  have n12 : g1 ≠ "U4".data := ne _ (by decide)
  have n13 : g1 ≠ "X4".data := ne _ (by decide)
  have n14 : g1 ≠ "I8".data := ne _ (by decide)
  have n15 : g1 ≠ "U8".data := ne _ (by decide)
  unfold scalarSwitch
  rw [if_neg n1, if_neg n2, if_neg n3, if_neg n4,
    if_neg (by simp [n5, n6, n7]), if_neg n8,
    if_neg (by simp [n9, n10]), if_neg n11,
    if_neg (by simp [n12, n13]), if_neg n14, if_neg n15]

theorem maskParts_shape (parts : List GoStr) (s : GoStr) :
    ∃ n, maskParts parts s = '0' :: 'x' :: hexIntChars n := by
  match parts with
  | [] => exact ⟨_, rfl⟩
  | [a] => exact ⟨_, rfl⟩
  | [a, b] => exact ⟨_, rfl⟩
  | a :: b :: c :: tl => exact ⟨_, rfl⟩

/-!  ### Claim theorems  -/

/-- Claim C1: every scalar code of the table resolves, bare to its
documented scalar type and with a `[12]` array suffix to the
array-of-that-type of length 12 (in particular `U4` to `uint32` and
`U4[12]` to `[12]uint32`). -/
theorem c1_scalar_table :
    ∀ pr ∈ codeTable,
      goType pr.1 = GoRes.ok pr.2 ∧
      goType (pr.1 ++ "[12]".data) = GoRes.ok ("[12]".data ++ pr.2) := by
  decide

theorem c1_scalar_table_witness :
    (("U4".data, "uint32".data) ∈ codeTable) ∧
    (goType "U4".data = GoRes.ok "uint32".data ∧
     goType ("U4".data ++ "[12]".data) = GoRes.ok ("[12]".data ++ "uint32".data)) :=
  ⟨by decide, c1_scalar_table ("U4".data, "uint32".data) (by decide)⟩

/-- Claim C2, counterexample: `goType` does not fail on `"U4[abc]"` — the
unanchored `reCType` match drops the malformed suffix and the call
succeeds with the bare scalar type `uint32`, contradicting the claim that
every string outside the grammar yields an error. -/
theorem c2_malformed_suffix_cex : goType "U4[abc]".data = GoRes.ok "uint32".data := by
  decide

/-- Claim C2 as amended: an input whose leftmost run of scalar-alphabet
characters is not a recognized code (such as `"Q9"`, where that run is
`"9"`) fails with an error naming the offending text, and an input with no
scalar-alphabet character at all fails with the generic error naming the
whole input (error-text equality is stated over strings `%q` quotes
verbatim); but a recognized code followed by a malformed array suffix,
such as `"U4[abc]"`, is accepted with the suffix ignored, yielding the
bare scalar type. -/
theorem c2_error_naming :
    (goType "Q9".data =
      GoRes.err ("Cannot parse ".data ++ goQuote "Q9".data ++
        " as a ctype (invalid scalar part ".data ++ goQuote "9".data ++ ")".data)) ∧
    (goType "U4[abc]".data = GoRes.ok "uint32".data) ∧
    (∀ (s g1 g2 : GoStr), (∀ c ∈ s, plainChar c = true) →
      reCTypeFind s = some (g1, g2) → g1 ∉ codeTable.map Prod.fst →
      goType s = GoRes.err ("Cannot parse ".data ++ goQuote s ++
        " as a ctype (invalid scalar part ".data ++ goQuote g1 ++ ")".data)) ∧
    (∀ s : GoStr, (∀ c ∈ s, plainChar c = true) → (∀ c ∈ s, isCTypeChar c = false) →
      goType s = GoRes.err ("Cannot parse ".data ++ goQuote s ++ " as ctype([arraylen])".data)) ∧
    (∀ pr ∈ codeTable, ∀ rest : GoStr,
      (∀ c ∈ rest.take 1, isCTypeChar c = false) →
      bracketGroup rest = [] →
      goType (pr.1 ++ rest) = GoRes.ok pr.2) := by
  refine ⟨by decide, by decide, ?_, ?_, ?_⟩
  · intro s g1 g2 _ hf hn
    simp [goType, hf, scalarSwitch_eq_none hn]
  · intro s _ h
    simp [goType, reCTypeFind_eq_none h]
  · intro pr hpr rest hhead hbr
    have hcl : pr.1 ≠ [] ∧ ∀ c ∈ pr.1, isCTypeChar c = true :=
      (by decide : ∀ p ∈ codeTable, p.1 ≠ [] ∧ ∀ c ∈ p.1, isCTypeChar c = true) pr hpr
    have hsw : scalarSwitch pr.1 = some pr.2 :=
      (by decide : ∀ p ∈ codeTable, scalarSwitch p.1 = some p.2) pr hpr
    have hfind := reCTypeFind_run hcl.1 hcl.2 hhead
    rw [hbr] at hfind
    simp [goType, hfind, hsw]

theorem c2_error_naming_witness :
    (∀ c ∈ ("Q9".data : GoStr), plainChar c = true) ∧
    (reCTypeFind "Q9".data = some ("9".data, [])) ∧
    ("9".data ∉ codeTable.map Prod.fst) ∧
    goType "Q9".data =
      GoRes.err ("Cannot parse ".data ++ goQuote "Q9".data ++
        " as a ctype (invalid scalar part ".data ++ goQuote "9".data ++ ")".data) :=
  ⟨by decide, by decide, by decide,
   c2_error_naming.2.2.1 "Q9".data "9".data [] (by decide) (by decide) (by decide)⟩

/-- Claim C3: the four documented mask values, and in general — for a
range specifier with parsable components and `hi >= lo` — the mask is the
hexadecimal rendering of `((1 << (hi+1)) - 1) XOR ((1 << lo) - 1)`: the
`% 2 ^ 64` gives the 64-bit two's-complement bit pattern of the source's
signed `int` expression and `hexIntChars` is `%x` of that signed value
(sign-rendered when bit 63 is set, identical to plain hex below that).
A parsable single index `i` likewise renders `1 << i`. -/
theorem c3_mask_formula :
    (mask "3".data = "0x8".data ∧ mask "0".data = "0x1".data ∧
     mask "7:4".data = "0xf0".data ∧ mask "0:0".data = "0x1".data) ∧
    (∀ (a b : GoStr) (hi lo : Nat), ':' ∉ a → ':' ∉ b →
      goParseUint 8 a = (hi, none) → goParseUint 8 b = (lo, none) → lo ≤ hi →
      mask (a ++ ':' :: b) =
        '0' :: 'x' :: hexIntChars (((2 ^ (hi + 1) - 1) ^^^ (2 ^ lo - 1)) % 2 ^ 64)) ∧
    (∀ (s : GoStr) (i : Nat), ':' ∉ s → goParseUint 8 s = (i, none) →
      mask s = '0' :: 'x' :: hexIntChars (2 ^ i % 2 ^ 64)) := by
  refine ⟨by decide, ?_, ?_⟩
  · intro a b hi lo ha hb hpa hpb _
    have ha2 : ∀ c ∈ a, c ≠ ':' := fun c hc he => ha (he ▸ hc)
    have hb2 : ∀ c ∈ b, c ≠ ':' := fun c hc he => hb (he ▸ hc)
    unfold mask
    rw [splitOnChar_append b ha2, splitOnChar_of_not_mem hb2]
    simp only [maskParts, hpa, hpb]
    rw [sub1_shl1, sub1_shl1, xor_mod_two_pow_64]
  · intro s i hs hp
    have hs2 : ∀ c ∈ s, c ≠ ':' := fun c hc he => hs (he ▸ hc)
    unfold mask
    rw [splitOnChar_of_not_mem hs2]
    simp only [maskParts, hp, shl1]

theorem c3_mask_formula_witness :
    (':' ∉ "7".data) ∧ (':' ∉ "4".data) ∧
    goParseUint 8 "7".data = (7, none) ∧ goParseUint 8 "4".data = (4, none) ∧ 4 ≤ 7 ∧
    mask ("7".data ++ ':' :: "4".data) =
      '0' :: 'x' :: hexIntChars (((2 ^ 8 - 1) ^^^ (2 ^ 4 - 1)) % 2 ^ 64) :=
  ⟨by decide, by decide, by decide, by decide, by decide,
   c3_mask_formula.2.1 "7".data "4".data 7 4 (by decide) (by decide) (by decide) (by decide)
     (by decide)⟩

/-- The sign of the source's `int` arithmetic is observable: bit 63 set
makes `%x` print a minus sign, as in Go's `mask("63")` and
`mask("63:0")`. -/
theorem mask_signed_examples :
    mask "63".data = "0x-8000000000000000".data ∧ mask "63:0".data = "0x-1".data := by
  decide

/-- Claim C4: `mask` never fails — it always returns a `0x…` mask string
(`%x` of the signed mask value) — and a component whose text is not
parsable as an unsigned integer is treated as the number zero: a wholly
unparsable single-index specifier yields the mask for bit 0 (`"0x1"`),
and an unparsable range component gives the same mask as the literal
component `"0"`. -/
theorem c4_mask_permissive :
    (∀ s : GoStr, ∃ n, mask s = '0' :: 'x' :: hexIntChars n) ∧
    (∀ s : GoStr, ':' ∉ s → (goParseUint 8 s).2 = some NumErr.synErr →
      mask s = "0x1".data) ∧
    (∀ a b : GoStr, ':' ∉ a → ':' ∉ b → (goParseUint 8 a).2 = some NumErr.synErr →
      mask (a ++ ':' :: b) = mask ('0' :: ':' :: b)) ∧
    (∀ a b : GoStr, ':' ∉ a → ':' ∉ b → (goParseUint 8 b).2 = some NumErr.synErr →
      mask (a ++ ':' :: b) = mask (a ++ [':', '0'])) := by
  refine ⟨?_, ?_, ?_, ?_⟩
  · intro s
    exact maskParts_shape (splitOnChar ':' s) s
  · intro s hs hp
    have hs2 : ∀ c ∈ s, c ≠ ':' := fun c hc he => hs (he ▸ hc)
    unfold mask
    rw [splitOnChar_of_not_mem hs2]
    simp only [maskParts, goParseUint_syn_val hp]
    decide
  · intro a b ha hb hp
    have ha2 : ∀ c ∈ a, c ≠ ':' := fun c hc he => ha (he ▸ hc)
    have hb2 : ∀ c ∈ b, c ≠ ':' := fun c hc he => hb (he ▸ hc)
    have e2 : splitOnChar ':' ('0' :: ':' :: b) = ['0'] :: splitOnChar ':' b :=
      splitOnChar_append (a := ['0']) b (by decide)
    unfold mask
    rw [splitOnChar_append b ha2, splitOnChar_of_not_mem hb2, e2,
      splitOnChar_of_not_mem hb2]
    simp only [maskParts, goParseUint_syn_val hp]
    have h00 : (goParseUint 8 ['0']).1 = 0 := by decide
    rw [h00]
  · intro a b ha hb hp
    have ha2 : ∀ c ∈ a, c ≠ ':' := fun c hc he => ha (he ▸ hc)
    have hb2 : ∀ c ∈ b, c ≠ ':' := fun c hc he => hb (he ▸ hc)
    have e2 : splitOnChar ':' (a ++ [':', '0']) = a :: splitOnChar ':' ['0'] :=
      splitOnChar_append ['0'] ha2
    have e3 : splitOnChar ':' (['0'] : GoStr) = [['0']] :=
      splitOnChar_of_not_mem (by decide)
    unfold mask
    rw [splitOnChar_append b ha2, splitOnChar_of_not_mem hb2, e2, e3]
    simp only [maskParts, goParseUint_syn_val hp]
    have h00 : (goParseUint 8 ['0']).1 = 0 := by decide
    rw [h00]

theorem c4_mask_permissive_witness :
    (':' ∉ "abc".data) ∧ ((goParseUint 8 "abc".data).2 = some NumErr.synErr) ∧
    mask "abc".data = "0x1".data :=
  ⟨by decide, by decide, c4_mask_permissive.2.1 "abc".data (by decide) (by decide)⟩

/-- Claim C7: the naming normalizer splits on `"-"`, title-cases each
segment and joins the segments after the first, so `"NAV-POSLLH"`
normalizes to `"Posllh"` and `"RXM-RAWX"` to `"Rawx"`. -/
theorem c7_msgtypename_examples :
    msgtypename "NAV-POSLLH".data = "Posllh".data ∧
    msgtypename "RXM-RAWX".data = "Rawx".data := by
  decide

/-- Claim C8: class/id literal parsing accepts decimal and `0x`-hex text
(`"0x01"` and `"1"` both parse to 1) and fails with a parse error on text
that is not a valid unsigned integer literal, such as `"xyz"`. -/
theorem c8_hex_parse :
    hexUnmarshal "0x01".data = HexRes.ok 1 ∧
    hexUnmarshal "1".data = HexRes.ok 1 ∧
    hexUnmarshal "xyz".data = HexRes.err NumErr.synErr := by
  decide

/-- Claim C9: because the parser uses base-0 parsing, it also accepts a
leading-zero octal literal (`"010"` parses to 8, not 10), the `0b` and
`0o` prefixes, and underscore digit separators. -/
theorem c9_base0_extras :
    hexUnmarshal "010".data = HexRes.ok 8 ∧
    hexUnmarshal "0b101".data = HexRes.ok 5 ∧
    hexUnmarshal "0o17".data = HexRes.ok 15 ∧
    hexUnmarshal "1_000".data = HexRes.ok 1000 := by
  decide

/-- Claim C10: on any input containing no hyphen the normalizer returns
the empty string, because the single segment produced by the split is the
leading segment, which is always discarded. -/
theorem c10_no_hyphen_empty (s : GoStr) (h : '-' ∉ s) : msgtypename s = [] := by
  have hl : ∀ c ∈ toLowerGo s, c ≠ '-' := by
    intro c hc he
    subst he
    obtain ⟨x, hx, hxe⟩ := List.mem_map.1 hc
    exact h (toLowerCh_eq_dash hxe ▸ hx)
  unfold msgtypename
  rw [splitOnChar_of_not_mem hl]
  rfl

theorem c10_no_hyphen_empty_witness :
    ('-' ∉ "POSLLH".data) ∧ msgtypename "POSLLH".data = [] :=
  ⟨by decide, c10_no_hyphen_empty "POSLLH".data (by decide)⟩

theorem incHead_zero (l : List Nat) : incHead 0 l = l := by
  cases l <;> simp [incHead]

theorem link_Message (mid : Nat) (p : List Nat) (b : Block) :
    (Block.link mid p b).Message = some mid := by
  cases b with
  | mk card cf off nm ty cm sc un bf ns msg => rfl

theorem link_Bitfield (mid : Nat) (p : List Nat) (b : Block) :
    (Block.link mid p b).Bitfield =
      b.Bitfield.map (fun bd => { bd with Field := some (mid, p) }) := by
  cases b with
  | mk card cf off nm ty cm sc un bf ns msg => rfl

theorem link_Nested (mid : Nat) (p : List Nat) (b : Block) :
    (Block.link mid p b).Nested = Block.linkList mid p 0 b.Nested := by
  cases b with
  | mk card cf off nm ty cm sc un bf ns msg => rfl

theorem linkList_nth : ∀ (bs : List Block) (k mid : Nat) (p : List Nat) (i : Nat),
    nth (Block.linkList mid p i bs) k =
      (nth bs k).map (fun b => Block.link mid (p ++ [i + k]) b) := by
  intro bs
  induction bs with
  | nil => intro k mid p i; simp [Block.linkList, nth]
  | cons b bs ih =>
    intro k mid p i
    cases k with
    | zero => simp [Block.linkList, nth]
    | succ k2 =>
      simp only [Block.linkList, nth]
      rw [ih]
      have e : i + 1 + k2 = i + (k2 + 1) := by omega
      rw [e]

theorem blockAt_linkList :
    ∀ (q : List Nat) (bs : List Block) (mid : Nat) (pre : List Nat) (i : Nat) (b : Block),
      blockAt (Block.linkList mid pre i bs) q = some b →
      b.Message = some mid ∧
        ∀ bd ∈ b.Bitfield, bd.Field = some (mid, pre ++ incHead i q) := by
  intro q
  induction q with
  | nil => intro bs mid pre i b h; simp [blockAt] at h
  | cons k rest ih =>
    intro bs mid pre i b h
    simp only [blockAt] at h
    rw [linkList_nth] at h
    cases hn : nth bs k with
    | none => rw [hn] at h; simp at h
    | some b0 =>
      rw [hn] at h
      by_cases hr : rest = []
      · subst hr
        simp only [Option.map_some'] at h
        simp only [if_true] at h
        injection h with h
        subst h
        refine ⟨link_Message mid (pre ++ [i + k]) b0, ?_⟩
        intro bd hbd
        rw [link_Bitfield] at hbd
        obtain ⟨bd0, _, hbd0⟩ := List.mem_map.1 hbd
        rw [← hbd0]
        simp [incHead]
      · simp only [Option.map_some', if_neg hr] at h
        rw [link_Nested] at h
        have hrec := ih b0.Nested mid (pre ++ [i + k]) 0 b h
        refine ⟨hrec.1, ?_⟩
        intro bd hbd
        rw [hrec.2 bd hbd, incHead_zero]
        simp [incHead, List.append_assoc]

theorem linkMsgs_nth : ∀ (ms : List Message) (k i : Nat),
    nth (linkMsgs i ms) k = (nth ms k).map (fun m => Message.link (i + k) m) := by
  intro ms
  induction ms with
  | nil => intro k i; simp [linkMsgs, nth]
  | cons m ms ih =>
    intro k i
    cases k with
    | zero => simp [linkMsgs, nth]
    | succ k2 =>
      simp only [linkMsgs, nth]
      rw [ih]
      have e : i + 1 + k2 = i + (k2 + 1) := by omega
      rw [e]

/-- Claim C5: after the `Link` pass, every block reachable from a message
— through arbitrarily deep nesting — carries the back-reference to its
enclosing message (arena-style, the message's index), and every entry of
a block's bitfield carries the back-reference to that very block (its
address: message index and path). -/
theorem c5_link_backrefs (d : Definitions) (mi : Nat) (m : Message) (q : List Nat) (b : Block)
    (hm : nth (Definitions.link d).Message mi = some m)
    (hb : blockAt m.Blocks q = some b) :
    b.Message = some mi ∧ ∀ bd ∈ b.Bitfield, bd.Field = some (mi, q) := by
  unfold Definitions.link at hm
  simp only [] at hm
  rw [linkMsgs_nth] at hm
  cases hm0 : nth d.Message mi with
  | none => rw [hm0] at hm; simp at hm
  | some m0 =>
    rw [hm0] at hm
    simp only [Option.map_some', Option.some.injEq] at hm
    subst hm
    simp only [Nat.zero_add, Message.link] at hb
    have hrec := blockAt_linkList q m0.Blocks mi [] 0 b hb
    refine ⟨hrec.1, fun bd hbd => ?_⟩
    rw [hrec.2 bd hbd, incHead_zero]
    simp

theorem c5_link_backrefs_witness :
    (nth (Definitions.link exDefs).Message 0 = some (Message.link 0 exMsg)) ∧
    (blockAt (Message.link 0 exMsg).Blocks [0, 0] = some (Block.link 0 [0, 0] exInner)) ∧
    ((Block.link 0 [0, 0] exInner).Message = some 0 ∧
     ∀ bd ∈ (Block.link 0 [0, 0] exInner).Bitfield, bd.Field = some (0, [0, 0])) :=
  ⟨rfl, rfl,
   c5_link_backrefs exDefs 0 (Message.link 0 exMsg) [0, 0] (Block.link 0 [0, 0] exInner)
     rfl rfl⟩

theorem map_setField_comp (v : Option (Nat × List Nat)) (bf : List BitDef) :
    List.map ((fun bd : BitDef => { bd with Field := v }) ∘
        (fun bd : BitDef => { bd with Field := v })) bf =
      List.map (fun bd : BitDef => { bd with Field := v }) bf :=
  congrFun (congrArg List.map (funext fun _ => rfl)) bf

theorem map_strip_comp (v : Option (Nat × List Nat)) (bf : List BitDef) :
    List.map (BitDef.strip ∘ (fun bd : BitDef => { bd with Field := v })) bf =
      List.map BitDef.strip bf :=
  congrFun (congrArg List.map (funext fun _ => rfl)) bf

mutual

theorem link_idem_block (mid : Nat) (p : List Nat) (b : Block) :
    Block.link mid p (Block.link mid p b) = Block.link mid p b := by
  cases b with
  | mk card cf off nm ty cm sc un bf ns msg =>
    simp only [Block.link]
    rw [List.map_map, map_setField_comp, link_idem_list mid p 0 ns]

theorem link_idem_list (mid : Nat) (p : List Nat) (i : Nat) (bs : List Block) :
    Block.linkList mid p i (Block.linkList mid p i bs) = Block.linkList mid p i bs := by
  cases bs with
  | nil => rfl
  | cons b bs =>
    simp only [Block.linkList]
    rw [link_idem_block mid (p ++ [i]) b, link_idem_list mid p (i + 1) bs]

end

mutual

theorem strip_link_block (mid : Nat) (p : List Nat) (b : Block) :
    Block.strip (Block.link mid p b) = Block.strip b := by
  cases b with
  | mk card cf off nm ty cm sc un bf ns msg =>
    simp only [Block.link, Block.strip]
    rw [List.map_map, map_strip_comp, strip_link_list mid p 0 ns]

theorem strip_link_list (mid : Nat) (p : List Nat) (i : Nat) (bs : List Block) :
    Block.stripList (Block.linkList mid p i bs) = Block.stripList bs := by
  cases bs with
  | nil => rfl
  | cons b bs =>
    simp only [Block.linkList, Block.stripList]
    rw [strip_link_block mid (p ++ [i]) b, strip_link_list mid p (i + 1) bs]

end

theorem link_idem_msg (i : Nat) (m : Message) :
    Message.link i (Message.link i m) = Message.link i m := by
  simp only [Message.link]
  rw [link_idem_list]

theorem strip_link_msg (i : Nat) (m : Message) :
    Message.strip (Message.link i m) = Message.strip m := by
  simp only [Message.link, Message.strip]
  rw [strip_link_list]

theorem link_idem_msgs : ∀ (ms : List Message) (i : Nat),
    linkMsgs i (linkMsgs i ms) = linkMsgs i ms := by
  intro ms
  induction ms with
  | nil => intro i; rfl
  | cons m ms ih =>
    intro i
    simp only [linkMsgs]
    rw [link_idem_msg, ih]

theorem strip_linkMsgs : ∀ (ms : List Message) (i : Nat),
    (linkMsgs i ms).map Message.strip = ms.map Message.strip := by
  intro ms
  induction ms with
  | nil => intro i; rfl
  | cons m ms ih =>
    intro i
    simp only [linkMsgs, List.map_cons]
    rw [strip_link_msg, ih]

/-- Claim C6: the `Link` pass is idempotent — linking a linked graph
changes nothing — and it touches nothing but the back-references: erasing
all back-references from the linked graph gives exactly the graph with
back-references erased from the input. -/
theorem c6_link_idempotent (d : Definitions) :
    Definitions.link (Definitions.link d) = Definitions.link d ∧
    Definitions.strip (Definitions.link d) = Definitions.strip d := by
  constructor
  · simp only [Definitions.link]
    rw [link_idem_msgs]
  · simp only [Definitions.link, Definitions.strip]
    rw [strip_linkMsgs]
